import Mathlib

/-!
Verification of the LZ-synth adaptive context-tree model against its
sources (`src/LZ_MIDI_data.py`): the trie builder `build_tree`
(lines 11-31) and the sampler `create_sentence` (lines 34-54).

The `Node` class is imported by `LZ_MIDI_data.py` (`import Node`,
`Node.Node(0, None)`) but the file `Node.py` is not among the sources,
so the node type and its methods are modelled from the specification
(§3 TrieNode, §4.1); everything else is translated from the Python
source.  Symbols are pitch-interval integers (the chord/tuple variant
of the alphabet does not occur in the ingestion path under study);
the Python falsy test `if not symbol` is `s = 0` on integers.

Mutation of the shared tree is embedded by state passing: the Python
`cur_branch` pointer into the tree becomes the path of symbols leading
from the root to the current node, and in-place updates become
functional updates along that path.
-/

/-- Modelled from the spec: the `Node` class used by `LZ_MIDI_data.py`
(file `Node.py` is missing from the sources).  A node carries the symbol
it represents, a traversal frequency, and an ordered list of children
(§3: mapping symbol → owned child, insertion-ordered).  The root's
symbol field is unused (Python passes `None`); `0` stands in for it. -/
inductive Node where
  | mk (sym : Int) (freq : Nat) (children : List Node)

def Node.sym : Node → Int
  | .mk s _ _ => s

def Node.freq : Node → Nat
  | .mk _ f _ => f

def Node.children : Node → List Node
  | .mk _ _ cs => cs

/-- Modelled from the spec: the `children_symbols` attribute — the symbols
of the node's children, in insertion order. -/
def Node.children_symbols (n : Node) : List Int := n.children.map Node.sym

/-- First child carrying the given symbol (children are distinct by
construction, §3 invariant). -/
def findChild : List Node → Int → Option Node
  | [], _ => none
  | c :: cs, a => if c.sym = a then some c else findChild cs a

/-- Modelled from the spec: `find_child_by_symbol` (§4.1 `find_child`). -/
def Node.find_child_by_symbol (n : Node) (s : Int) : Option Node :=
  findChild n.children s

/-- Modelled from the spec: `is_leaf()` — true iff `children` is empty (§4.1). -/
def Node.is_leaf (n : Node) : Bool := n.children.isEmpty

/-- Modelled from the spec: `create_child(freq, symbol)` — append a fresh
childless child; the Python method returns the child, here the updated
parent is returned and the caller descends by path. -/
def Node.create_child (n : Node) (f : Nat) (s : Int) : Node :=
  .mk n.sym n.freq (n.children ++ [.mk s f []])

/-- The root node as constructed by the caller: `Node.Node(0, None)`
(`lz_synth_main`, line 75) — frequency 0, no children. -/
def rootNode : Node := .mk 0 0 []

/-- Node found by walking a path of symbols down from `t`. -/
def nodeAt : List Int → Node → Option Node
  | [], t => some t
  | a :: p, t => (findChild t.children a).bind fun c => nodeAt p c

/-- Replace the first child carrying symbol `a` by its image under `F`
(the Python code mutates the node returned by `find_child_by_symbol`). -/
def updFirst (F : Node → Node) (a : Int) : List Node → List Node
  | [] => []
  | c :: cs => if c.sym = a then F c :: cs else c :: updFirst F a cs

/-- Apply `F` to the node sitting at the given path (functional image of a
Python in-place mutation of `cur_branch`). -/
def updateAt (F : Node → Node) : List Int → Node → Node
  | [], t => F t
  | a :: p, t => .mk t.sym t.freq (updFirst (updateAt F p) a t.children)

/-- `cur_branch.freq += 1` (line 20). -/
def bumpFreq (n : Node) : Node := .mk n.sym (n.freq + 1) n.children

/-- Frequency of the node at a path, 0 when the path leads nowhere. -/
def freqAtD (p : List Int) (t : Node) : Nat :=
  ((nodeAt p t).map Node.freq).getD 0

/-- The path leads to a node of the tree. -/
def validPath (p : List Int) (t : Node) : Prop := (nodeAt p t).isSome = true

/-- Symbols of the children of the node at a path (empty when the path
leads nowhere). -/
def childSyms (p : List Int) (t : Node) : List Int :=
  ((nodeAt p t).map Node.children_symbols).getD []

/-- State of the `build_tree` loop (lines 13-15): the tree, the cursor
`cur_branch` as a path from the root, and the `steps`/`depth` counters. -/
structure BState where
  tree : Node
  path : List Int
  steps : Nat
  depth : Nat

/-- One iteration of the `build_tree` loop body for a non-falsy symbol
(lines 19-31).  `mS`/`mD` are `max_steps`/`max_depth`; `none` models the
Python `None`, against which `==` is always false. -/
def buildStep (mS mD : Option Nat) (st : BState) (s : Int) : BState :=
  if s ∈ childSyms st.path st.tree then
    let t := updateAt bumpFreq st.path st.tree
    let d := st.depth + 1
    if mD = some d then ⟨t, [], st.steps, 0⟩
    else ⟨t, st.path ++ [s], st.steps, d⟩
  else
    let t := updateAt (fun n => n.create_child 1 s) st.path st.tree
    let k := st.steps + 1
    if mS = some k then ⟨t, [], 0, st.depth⟩
    else ⟨t, st.path ++ [s], k, st.depth⟩

/-- The `for symbol in data` loop (lines 16-31), including the falsy-symbol
abort (lines 17-18): a zero symbol stops ingestion of the sequence. -/
def buildSeq (mS mD : Option Nat) : List Int → BState → BState
  | [], st => st
  | s :: rest, st =>
    if s = 0 then st else buildSeq mS mD rest (buildStep mS mD st s)

/-- `build_tree(data, Tree, max_steps, max_depth)` (lines 11-31): fold one
sequence into the tree, starting at the root with both counters 0. -/
def build_tree (data : List Int) (t : Node) (mS mD : Option Nat) : Node :=
  (buildSeq mS mD data ⟨t, [], 0, 0⟩).tree

/-- The caller's loop folding several sequences into one tree
(`lz_synth_main`, lines 76-78); counters restart per sequence. -/
def build_tree_many (seqs : List (List Int)) (t : Node) (mS mD : Option Nat) : Node :=
  seqs.foldl (fun acc d => build_tree d acc mS mD) t

/-- State of the `create_sentence` loop (lines 35-38): the current node
(`cur_context`), the output `sentence`, the `leaf_restarts` counter, and
the `sequence_lengths` list (integers, as in Python). -/
structure SState where
  cur : Node
  sentence : List Int
  restarts : Nat
  seqLens : List Int

/-- `random.choice(Trees)`: the oracle value `k` is reduced modulo the
forest size, so every actual draw is representable. -/
def pickTree (trees : List Node) (k : Nat) : Node :=
  trees.getD (k % trees.length) rootNode

/-- One iteration of the `create_sentence` loop at output position `i`
(lines 40-53).  Randomness is an outcome oracle: `tOr j` is the index
drawn by the `j`-th call of `random.choice(Trees)` (call 0 is the initial
choice, call `r` the one made at the `r`-th restart), and `sOr i` is the
position in the children list drawn by the weighted `random.choices` call
of iteration `i`.  `Except.error` models the exception Python raises at
line 51 when the children population is empty, and the `ZeroDivisionError`
at line 50 when the children frequencies sum to 0. -/
def sampIter (trees : List Node) (tOr sOr : Nat → Nat) (i : Nat) (st : SState) :
    Except Unit SState :=
  let st1 :=
    if st.cur.is_leaf then
      { cur := pickTree trees (tOr (st.restarts + 1)),
        sentence := st.sentence,
        restarts := st.restarts + 1,
        seqLens := st.seqLens ++ [(i : Int) - st.seqLens.sum] }
    else st
  let cs := st1.cur.children
  if cs.isEmpty then .error ()
  else if (cs.map Node.freq).sum = 0 then .error ()
  else
    let c := cs.getD (sOr i % cs.length) rootNode
    .ok { cur := c, sentence := st1.sentence ++ [c.sym],
          restarts := st1.restarts, seqLens := st1.seqLens }

/-- The `for i in range(sentence_length)` loop (line 39): `i` is the current
position, the second argument the number of remaining iterations. -/
def sampLoop (trees : List Node) (tOr sOr : Nat → Nat) :
    Nat → Nat → SState → Except Unit SState
  | _, 0, st => .ok st
  | i, n + 1, st =>
    match sampIter trees tOr sOr i st with
    | .error e => .error e
    | .ok st2 => sampLoop trees tOr sOr (i + 1) n st2

/-- `create_sentence(Trees, sentence_length)` (lines 34-54).  An empty
forest makes the initial `random.choice` raise, modelled as an error. -/
def create_sentence (trees : List Node) (tOr sOr : Nat → Nat) (len : Nat) :
    Except Unit (List Int × Nat × List Int) :=
  if trees.isEmpty then .error ()
  else
    match sampLoop trees tOr sOr 0 len ⟨pickTree trees (tOr 0), [], 0, []⟩ with
    | .error e => .error e
    | .ok st => .ok (st.sentence, st.restarts, st.seqLens)

/-- `total_seen` of a sampling step (line 48): the sum of the current
node's children frequencies, recomputed from the current children set. -/
def total_seen (n : Node) : Nat := (n.children.map Node.freq).sum

/-- The per-child probability list computed at each sampling step
(lines 49-50): each child's frequency divided by `total_seen`. -/
def probabilities (n : Node) : List ℚ :=
  n.children.map (fun c => (c.freq : ℚ) / (total_seen n : ℚ))

/-- Ghost-instrumented ingestion state: alongside the plain `BState`,
`visits` records every value taken by the Python `cur_branch` pointer, in
order, as paths (its initial assignment to the root, each descent into a
found or created child, and each reset to the root); `hits` records the
cursor positions at which line 20 incremented a frequency; `creates`
records the paths of nodes created by line 27. -/
structure IState where
  b : BState
  visits : List (List Int)
  hits : List (List Int)
  creates : List (List Int)

/-- Instrumented version of `buildStep`: same underlying step, plus the
ghost trace.  A reset is visible as the new cursor path being `[]` (the
descended-into child's path is never `[]`). -/
def istep (mS mD : Option Nat) (st : IState) (s : Int) : IState :=
  let nb := buildStep mS mD st.b s
  let desc := st.b.path ++ [s]
  let vis := st.visits ++ [desc] ++ (if nb.path = [] then [[]] else [])
  if s ∈ childSyms st.b.path st.b.tree then
    { b := nb, visits := vis, hits := st.hits ++ [st.b.path], creates := st.creates }
  else
    { b := nb, visits := vis, hits := st.hits, creates := st.creates ++ [desc] }

/-- Instrumented version of `buildSeq`. -/
def iseq (mS mD : Option Nat) : List Int → IState → IState
  | [], st => st
  | s :: rest, st =>
    if s = 0 then st else iseq mS mD rest (istep mS mD st s)

/-- Instrumented version of `build_tree`: cursor and counters restart at
the root, which is recorded as a visit. -/
def ibuildOne (mS mD : Option Nat) (data : List Int) (st : IState) : IState :=
  iseq mS mD data
    { b := ⟨st.b.tree, [], 0, 0⟩, visits := st.visits ++ [[]],
      hits := st.hits, creates := st.creates }

/-- Instrumented version of `build_tree_many`, from an uninstrumented
start on tree `t`. -/
def ibuildMany (seqs : List (List Int)) (mS mD : Option Nat) (t : Node) : IState :=
  seqs.foldl (fun st d => ibuildOne mS mD d st) ⟨⟨t, [], 0, 0⟩, [], [], []⟩

@[simp] theorem Node.sym_mk (s : Int) (f : Nat) (cs : List Node) :
    (Node.mk s f cs).sym = s := rfl

@[simp] theorem Node.freq_mk (s : Int) (f : Nat) (cs : List Node) :
    (Node.mk s f cs).freq = f := rfl

@[simp] theorem Node.children_mk (s : Int) (f : Nat) (cs : List Node) :
    (Node.mk s f cs).children = cs := rfl

theorem bumpFreq_sym (n : Node) : (bumpFreq n).sym = n.sym := rfl

theorem create_child_sym (n : Node) (f : Nat) (s : Int) :
    (n.create_child f s).sym = n.sym := rfl

theorem findChild_isSome_iff (cs : List Node) (a : Int) :
    (findChild cs a).isSome = true ↔ a ∈ cs.map Node.sym := by
  induction cs with
  | nil => simp [findChild]
  | cons c cs ih =>
    by_cases h : c.sym = a
    · simp [findChild, h]
    · have h2 : ¬ a = c.sym := fun hh => h hh.symm
      simp [findChild, h, ih, h2]

theorem findChild_eq_none_of_not_mem (cs : List Node) (a : Int)
    (h : a ∉ cs.map Node.sym) : findChild cs a = none := by
  cases hf : findChild cs a with
  | none => rfl
  | some c =>
    exact absurd ((findChild_isSome_iff cs a).mp (by simp [hf])) h

theorem findChild_append_of_some (cs ds : List Node) (a : Int) (c : Node)
    (h : findChild cs a = some c) : findChild (cs ++ ds) a = some c := by
  induction cs with
  | nil => simp [findChild] at h
  | cons d cs ih =>
    by_cases hd : d.sym = a
    · simp [findChild, hd] at h ⊢; exact h
    · simp [findChild, hd] at h ⊢; exact ih h

theorem findChild_append_of_none (cs ds : List Node) (a : Int)
    (h : findChild cs a = none) : findChild (cs ++ ds) a = findChild ds a := by
  induction cs with
  | nil => simp [findChild]
  | cons d cs ih =>
    by_cases hd : d.sym = a
    · simp [findChild, hd] at h
    · simp [findChild, hd] at h ⊢; exact ih h

theorem findChild_updFirst_self (F : Node → Node) (a : Int) (cs : List Node)
    (hF : ∀ n, (F n).sym = n.sym) :
    findChild (updFirst F a cs) a = (findChild cs a).map F := by
  induction cs with
  | nil => simp [findChild, updFirst]
  | cons c cs ih =>
    by_cases h : c.sym = a
    · simp [findChild, updFirst, h, hF]
    · simp [findChild, updFirst, h, ih]

theorem findChild_updFirst_ne (F : Node → Node) (a b : Int) (cs : List Node)
    (hF : ∀ n, (F n).sym = n.sym) (hab : b ≠ a) :
    findChild (updFirst F a cs) b = findChild cs b := by
  induction cs with
  | nil => simp [findChild, updFirst]
  | cons c cs ih =>
    by_cases h : c.sym = a
    · have hcb : ¬ (F c).sym = b := by rw [hF, h]; exact fun hh => hab hh.symm
      have hcb2 : ¬ c.sym = b := by rw [h]; exact fun hh => hab hh.symm
      have hba : ¬ a = b := fun hh => hab hh.symm
      simp [findChild, updFirst, h, hcb, hcb2, hba]
    · simp [findChild, updFirst, h, ih]

theorem updateAt_sym (F : Node → Node) (hF : ∀ n, (F n).sym = n.sym)
    (p : List Int) (t : Node) : (updateAt F p t).sym = t.sym := by
  cases p with
  | nil => exact hF t
  | cons a p => rfl

theorem nodeAt_append (p r : List Int) (t : Node) :
    nodeAt (p ++ r) t = (nodeAt p t).bind (fun n => nodeAt r n) := by
  induction p generalizing t with
  | nil => simp [nodeAt]
  | cons a p ih =>
    show (findChild t.children a).bind (fun c => nodeAt (p ++ r) c) = _
    cases hf : findChild t.children a with
    | none => simp [nodeAt, hf]
    | some c => simp [nodeAt, hf, ih]

theorem validPath_nil (t : Node) : validPath [] t := rfl

theorem bump_spec (p : List Int) (t : Node) (hv : validPath p t) :
    (∀ q, freqAtD q (updateAt bumpFreq p t) = freqAtD q t + (if q = p then 1 else 0)) ∧
    (∀ q, validPath q (updateAt bumpFreq p t) ↔ validPath q t) := by
  induction p generalizing t with
  | nil =>
    constructor
    · intro q
      cases q with
      | nil => simp [freqAtD, nodeAt, updateAt, bumpFreq]
      | cons b q => simp [freqAtD, nodeAt, updateAt, bumpFreq]
    · intro q
      cases q with
      | nil => simp [validPath, nodeAt, updateAt, bumpFreq]
      | cons b q => simp [validPath, nodeAt, updateAt, bumpFreq]
  | cons a p ih =>
    have hv' : validPath p ((findChild t.children a).getD rootNode) := by
      unfold validPath nodeAt at hv
      cases hf : findChild t.children a with
      | none => rw [hf] at hv; simp at hv
      | some c => rw [hf] at hv; simpa [validPath] using hv
    cases hf : findChild t.children a with
    | none =>
      exfalso
      unfold validPath nodeAt at hv
      rw [hf] at hv; simp at hv
    | some c =>
      rw [hf] at hv'
      simp only [Option.getD_some] at hv'
      have hsymG : ∀ n, (updateAt bumpFreq p n).sym = n.sym :=
        fun n => updateAt_sym bumpFreq bumpFreq_sym p n
      have IH := ih c hv'
      have hfind : findChild (updFirst (updateAt bumpFreq p) a t.children) a
          = some (updateAt bumpFreq p c) := by
        rw [findChild_updFirst_self _ _ _ hsymG, hf, Option.map_some']
      constructor
      · intro q
        cases q with
        | nil => simp [freqAtD, nodeAt, updateAt]
        | cons b q =>
          by_cases hba : b = a
          · subst hba
            have lhs_eq : freqAtD (b :: q) (updateAt bumpFreq (b :: p) t)
                = freqAtD q (updateAt bumpFreq p c) := by
              simp [freqAtD, nodeAt, updateAt, hfind]
            have rhs_eq : freqAtD (b :: q) t = freqAtD q c := by
              simp [freqAtD, nodeAt, hf]
            rw [lhs_eq, rhs_eq, IH.1 q]
            simp
          · have hkeep : findChild (updFirst (updateAt bumpFreq p) a t.children) b
                = findChild t.children b := findChild_updFirst_ne _ _ _ _ hsymG hba
            simp [freqAtD, nodeAt, updateAt, hkeep, hba]
      · intro q
        cases q with
        | nil => simp [validPath, nodeAt, updateAt]
        | cons b q =>
          by_cases hba : b = a
          · subst hba
            have lhs_eq : validPath (b :: q) (updateAt bumpFreq (b :: p) t)
                ↔ validPath q (updateAt bumpFreq p c) := by
              simp [validPath, nodeAt, updateAt, hfind]
            have rhs_eq : validPath (b :: q) t ↔ validPath q c := by
              simp [validPath, nodeAt, hf]
            rw [lhs_eq, rhs_eq]
            exact IH.2 q
          · have hkeep : findChild (updFirst (updateAt bumpFreq p) a t.children) b
                = findChild t.children b := findChild_updFirst_ne _ _ _ _ hsymG hba
            simp [validPath, nodeAt, updateAt, hkeep]

theorem childSyms_of_find (a : Int) (p : List Int) (t c : Node)
    (hf : findChild t.children a = some c) :
    childSyms (a :: p) t = childSyms p c := by
  simp [childSyms, nodeAt, hf]

theorem create_spec (p : List Int) (t : Node) (s : Int) (hv : validPath p t)
    (hs : s ∉ childSyms p t) :
    (∀ q, freqAtD q (updateAt (fun n => n.create_child 1 s) p t)
        = freqAtD q t + (if q = p ++ [s] then 1 else 0)) ∧
    (∀ q, validPath q (updateAt (fun n => n.create_child 1 s) p t)
        ↔ (validPath q t ∨ q = p ++ [s])) := by
  induction p generalizing t with
  | nil =>
    have hnone : findChild t.children s = none := by
      apply findChild_eq_none_of_not_mem
      simpa [childSyms, nodeAt, Node.children_symbols] using hs
    have happ : ∀ b, findChild (t.children ++ [Node.mk s 1 []]) b
        = if b = s then some (Node.mk s 1 []) else findChild t.children b := by
      intro b
      by_cases hb : b = s
      · subst hb
        rw [findChild_append_of_none _ _ _ hnone]
        simp [findChild]
      · cases hfb : findChild t.children b with
        | none =>
          rw [findChild_append_of_none _ _ _ hfb]
          have hsb : ¬ s = b := fun hh => hb hh.symm
          simp [findChild, hb, hsb]
        | some c => rw [findChild_append_of_some _ _ _ _ hfb]; simp [hb]
    constructor
    · intro q
      cases q with
      | nil => simp [freqAtD, nodeAt, updateAt, Node.create_child]
      | cons b q =>
        by_cases hb : b = s
        · subst hb
          cases q with
          | nil =>
            simp [freqAtD, nodeAt, updateAt, Node.create_child, happ, hnone]
          | cons e q =>
            simp [freqAtD, nodeAt, updateAt, Node.create_child, happ, hnone, findChild]
        · simp [freqAtD, nodeAt, updateAt, Node.create_child, happ, hb]
    · intro q
      cases q with
      | nil => simp [validPath, nodeAt, updateAt, Node.create_child]
      | cons b q =>
        by_cases hb : b = s
        · subst hb
          cases q with
          | nil =>
            simp [validPath, nodeAt, updateAt, Node.create_child, happ, hnone]
          | cons e q =>
            simp [validPath, nodeAt, updateAt, Node.create_child, happ, hnone, findChild]
        · simp [validPath, nodeAt, updateAt, Node.create_child, happ, hb]
  | cons a p ih =>
    cases hf : findChild t.children a with
    | none =>
      exfalso
      unfold validPath nodeAt at hv
      rw [hf] at hv; simp at hv
    | some c =>
      have hv' : validPath p c := by
        unfold validPath nodeAt at hv
        rw [hf] at hv; simpa [validPath] using hv
      have hs' : s ∉ childSyms p c := by
        rw [childSyms_of_find a p t c hf] at hs; exact hs
      have hsymG : ∀ n, (updateAt (fun m => m.create_child 1 s) p n).sym = n.sym :=
        fun n => updateAt_sym _ (fun m => create_child_sym m 1 s) p n
      have IH := ih c hv' hs'
      have hfind : findChild (updFirst (updateAt (fun m => m.create_child 1 s) p) a t.children) a
          = some (updateAt (fun m => m.create_child 1 s) p c) := by
        rw [findChild_updFirst_self _ _ _ hsymG, hf, Option.map_some']
      constructor
      · intro q
        cases q with
        | nil => simp [freqAtD, nodeAt, updateAt]
        | cons b q =>
          by_cases hba : b = a
          · subst hba
            have lhs_eq : freqAtD (b :: q) (updateAt (fun m => m.create_child 1 s) (b :: p) t)
                = freqAtD q (updateAt (fun m => m.create_child 1 s) p c) := by
              simp [freqAtD, nodeAt, updateAt, hfind]
            have rhs_eq : freqAtD (b :: q) t = freqAtD q c := by
              simp [freqAtD, nodeAt, hf]
            rw [lhs_eq, rhs_eq, IH.1 q]
            simp
          · have hkeep : findChild (updFirst (updateAt (fun m => m.create_child 1 s) p) a t.children) b
                = findChild t.children b := findChild_updFirst_ne _ _ _ _ hsymG hba
            simp [freqAtD, nodeAt, updateAt, hkeep, hba]
      · intro q
        cases q with
        | nil => simp [validPath, nodeAt, updateAt]
        | cons b q =>
          by_cases hba : b = a
          · subst hba
            have lhs_eq : validPath (b :: q) (updateAt (fun m => m.create_child 1 s) (b :: p) t)
                ↔ validPath q (updateAt (fun m => m.create_child 1 s) p c) := by
              simp [validPath, nodeAt, updateAt, hfind]
            have rhs_eq : validPath (b :: q) t ↔ validPath q c := by
              simp [validPath, nodeAt, hf]
            rw [lhs_eq, rhs_eq, IH.2 q]
            simp
          · have hkeep : findChild (updFirst (updateAt (fun m => m.create_child 1 s) p) a t.children) b
                = findChild t.children b := findChild_updFirst_ne _ _ _ _ hsymG hba
            simp [validPath, nodeAt, updateAt, hkeep, hba]

/-- Invariant (§3): every non-root node of the tree has frequency at
least 1, stated over paths: any nonempty path leading to a node leads to
a node of frequency ≥ 1. -/
def wellFreq (t : Node) : Prop :=
  ∀ p, p ≠ [] → validPath p t → 1 ≤ freqAtD p t

theorem wellFreq_rootNode : wellFreq rootNode := by
  intro p hp hv
  cases p with
  | nil => exact absurd rfl hp
  | cons a p =>
    exfalso
    simp [validPath, nodeAt, rootNode, findChild] at hv

theorem mem_childSyms_iff (s : Int) (p : List Int) (t : Node)
    (hv : validPath p t) : s ∈ childSyms p t ↔ validPath (p ++ [s]) t := by
  unfold validPath at hv
  rw [Option.isSome_iff_exists] at hv
  obtain ⟨n, hn⟩ := hv
  have h1 : childSyms p t = n.children.map Node.sym := by
    simp [childSyms, hn, Node.children_symbols]
  have h2 : nodeAt (p ++ [s]) t = findChild n.children s := by
    rw [nodeAt_append, hn]
    cases hf : findChild n.children s <;> simp [nodeAt, hf]
  rw [h1, validPath, h2, findChild_isSome_iff]

theorem buildStep_tree_mem (mS mD : Option Nat) (st : BState) (s : Int)
    (hmem : s ∈ childSyms st.path st.tree) :
    (buildStep mS mD st s).tree = updateAt bumpFreq st.path st.tree := by
  unfold buildStep
  by_cases hd : mD = some (st.depth + 1) <;> simp [hmem, hd]

theorem buildStep_tree_not_mem (mS mD : Option Nat) (st : BState) (s : Int)
    (hmem : s ∉ childSyms st.path st.tree) :
    (buildStep mS mD st s).tree
      = updateAt (fun n => n.create_child 1 s) st.path st.tree := by
  unfold buildStep
  by_cases hk : mS = some (st.steps + 1) <;> simp [hmem, hk]

theorem buildStep_path (mS mD : Option Nat) (st : BState) (s : Int) :
    (buildStep mS mD st s).path = [] ∨
      (buildStep mS mD st s).path = st.path ++ [s] := by
  unfold buildStep
  by_cases hmem : s ∈ childSyms st.path st.tree
  · by_cases hd : mD = some (st.depth + 1) <;> simp [hmem, hd]
  · by_cases hk : mS = some (st.steps + 1) <;> simp [hmem, hk]

theorem buildStep_valid (mS mD : Option Nat) (st : BState) (s : Int)
    (hv : validPath st.path st.tree) :
    validPath (buildStep mS mD st s).path (buildStep mS mD st s).tree := by
  by_cases hmem : s ∈ childSyms st.path st.tree
  · rw [buildStep_tree_mem mS mD st s hmem]
    rcases buildStep_path mS mD st s with h | h <;> rw [h]
    · exact validPath_nil _
    · rw [(bump_spec st.path st.tree hv).2]
      exact (mem_childSyms_iff s st.path st.tree hv).mp hmem
  · rw [buildStep_tree_not_mem mS mD st s hmem]
    rcases buildStep_path mS mD st s with h | h <;> rw [h]
    · exact validPath_nil _
    · exact ((create_spec st.path st.tree s hv hmem).2 _).mpr (Or.inr rfl)

theorem buildStep_wellFreq (mS mD : Option Nat) (st : BState) (s : Int)
    (hv : validPath st.path st.tree) (hw : wellFreq st.tree) :
    wellFreq (buildStep mS mD st s).tree := by
  by_cases hmem : s ∈ childSyms st.path st.tree
  · rw [buildStep_tree_mem mS mD st s hmem]
    intro q hq hvq
    rw [(bump_spec st.path st.tree hv).1 q]
    have hvq' : validPath q st.tree := ((bump_spec st.path st.tree hv).2 q).mp hvq
    have hold := hw q hq hvq'
    by_cases hqp : q = st.path
    · simp [hqp]
    · simpa [hqp] using hold
  · rw [buildStep_tree_not_mem mS mD st s hmem]
    intro q hq hvq
    rw [(create_spec st.path st.tree s hv hmem).1 q]
    rcases ((create_spec st.path st.tree s hv hmem).2 q).mp hvq with hvq' | hnew
    · have hold := hw q hq hvq'
      by_cases hqp : q = st.path ++ [s]
      · simp [hqp]
      · simpa [hqp] using hold
    · simp [hnew]

theorem buildSeq_pres (mS mD : Option Nat) (data : List Int) (st : BState)
    (hv : validPath st.path st.tree) (hw : wellFreq st.tree) :
    validPath (buildSeq mS mD data st).path (buildSeq mS mD data st).tree ∧
      wellFreq (buildSeq mS mD data st).tree := by
  induction data generalizing st with
  | nil => exact ⟨hv, hw⟩
  | cons s rest ih =>
    by_cases hz : s = 0
    · simpa [buildSeq, hz] using ⟨hv, hw⟩
    · rw [buildSeq, if_neg hz]
      exact ih (buildStep mS mD st s)
        (buildStep_valid mS mD st s hv) (buildStep_wellFreq mS mD st s hv hw)

theorem build_tree_wellFreq (data : List Int) (t : Node) (mS mD : Option Nat)
    (hw : wellFreq t) : wellFreq (build_tree data t mS mD) :=
  (buildSeq_pres mS mD data ⟨t, [], 0, 0⟩ (validPath_nil t) hw).2

theorem build_tree_many_wellFreq (seqs : List (List Int)) (t : Node)
    (mS mD : Option Nat) (hw : wellFreq t) :
    wellFreq (build_tree_many seqs t mS mD) := by
  induction seqs generalizing t with
  | nil => exact hw
  | cons d ds ih =>
    show wellFreq (build_tree_many ds (build_tree d t mS mD) mS mD)
    exact ih (build_tree d t mS mD) (build_tree_wellFreq d t mS mD hw)

theorem istep_b (mS mD : Option Nat) (st : IState) (s : Int) :
    (istep mS mD st s).b = buildStep mS mD st.b s := by
  unfold istep
  by_cases hmem : s ∈ childSyms st.b.path st.b.tree <;> simp [hmem]

theorem iseq_b (mS mD : Option Nat) (data : List Int) (st : IState) :
    (iseq mS mD data st).b = buildSeq mS mD data st.b := by
  induction data generalizing st with
  | nil => rfl
  | cons s rest ih =>
    by_cases hz : s = 0
    · simp [iseq, buildSeq, hz]
    · simp only [iseq, buildSeq, if_neg hz]
      rw [ih, istep_b]

theorem ibuildMany_b_tree (seqs : List (List Int)) (mS mD : Option Nat) (t : Node) :
    (ibuildMany seqs mS mD t).b.tree = build_tree_many seqs t mS mD := by
  suffices h : ∀ st : IState,
      (seqs.foldl (fun s2 d => ibuildOne mS mD d s2) st).b.tree
        = build_tree_many seqs st.b.tree mS mD by
    exact h ⟨⟨t, [], 0, 0⟩, [], [], []⟩
  induction seqs with
  | nil => intro st; rfl
  | cons d ds ih =>
    intro st
    show (ds.foldl (fun s2 d2 => ibuildOne mS mD d2 s2) (ibuildOne mS mD d st)).b.tree
        = build_tree_many ds (build_tree d st.b.tree mS mD) mS mD
    rw [ih (ibuildOne mS mD d st)]
    have hb : (ibuildOne mS mD d st).b.tree = build_tree d st.b.tree mS mD := by
      unfold ibuildOne build_tree
      rw [iseq_b]
    rw [hb]

theorem count_append_single (l : List (List Int)) (p q : List Int) :
    (l ++ [p]).count q = l.count q + (if q = p then 1 else 0) := by
  by_cases h : q = p <;> simp [List.count_append, List.count_singleton, h]

/-- Bookkeeping relation for the instrumented build: every node's frequency
is its initial frequency, plus the number of line-20 increments that
happened while the cursor sat at it, plus one if it was created by
line 27. -/
def ledger (st : IState) (t0 : Node) : Prop :=
  ∀ q, freqAtD q st.b.tree
    = freqAtD q t0 + st.hits.count q + st.creates.count q

theorem istep_ledger (mS mD : Option Nat) (st : IState) (s : Int) (t0 : Node)
    (hv : validPath st.b.path st.b.tree) (hl : ledger st t0) :
    ledger (istep mS mD st s) t0 := by
  intro q
  rw [istep_b]
  by_cases hmem : s ∈ childSyms st.b.path st.b.tree
  · have hhits : (istep mS mD st s).hits = st.hits ++ [st.b.path] := by
      unfold istep; simp [hmem]
    have hcr : (istep mS mD st s).creates = st.creates := by
      unfold istep; simp [hmem]
    rw [buildStep_tree_mem mS mD st.b s hmem, (bump_spec st.b.path st.b.tree hv).1 q,
      hl q, hhits, hcr, count_append_single]
    omega
  · have hhits : (istep mS mD st s).hits = st.hits := by
      unfold istep; simp [hmem]
    have hcr : (istep mS mD st s).creates = st.creates ++ [st.b.path ++ [s]] := by
      unfold istep; simp [hmem]
    rw [buildStep_tree_not_mem mS mD st.b s hmem,
      (create_spec st.b.path st.b.tree s hv hmem).1 q,
      hl q, hhits, hcr, count_append_single]
    omega

theorem iseq_ledger (mS mD : Option Nat) (data : List Int) (st : IState) (t0 : Node)
    (hv : validPath st.b.path st.b.tree) (hl : ledger st t0) :
    ledger (iseq mS mD data st) t0 := by
  induction data generalizing st with
  | nil => exact hl
  | cons s rest ih =>
    by_cases hz : s = 0
    · simpa [iseq, hz] using hl
    · rw [iseq, if_neg hz]
      have hv2 : validPath (istep mS mD st s).b.path (istep mS mD st s).b.tree := by
        rw [istep_b]; exact buildStep_valid mS mD st.b s hv
      exact ih (istep mS mD st s) hv2 (istep_ledger mS mD st s t0 hv hl)

theorem ibuildMany_ledger (seqs : List (List Int)) (mS mD : Option Nat) (t : Node) :
    ledger (ibuildMany seqs mS mD t) t := by
  suffices h : ∀ st : IState, ledger st t →
      ledger (seqs.foldl (fun s2 d => ibuildOne mS mD d s2) st) t by
    apply h
    intro q; simp
  induction seqs with
  | nil => intro st hl; exact hl
  | cons d ds ih =>
    intro st hl
    apply ih
    unfold ibuildOne
    apply iseq_ledger
    · exact validPath_nil _
    · intro q; exact hl q

theorem freqAtD_rootNode (q : List Int) : freqAtD q rootNode = 0 := by
  cases q with
  | nil => rfl
  | cons a p => simp [freqAtD, nodeAt, rootNode, findChild]

theorem sampIter_fields (trees : List Node) (tOr sOr : Nat → Nat) (i : Nat)
    (st st2 : SState) (h : sampIter trees tOr sOr i st = .ok st2) :
    st2.sentence.length = st.sentence.length + 1 ∧
    ((st2.restarts = st.restarts ∧ st2.seqLens = st.seqLens) ∨
      (st2.restarts = st.restarts + 1 ∧
        st2.seqLens = st.seqLens ++ [(i : Int) - st.seqLens.sum])) := by
  unfold sampIter at h
  by_cases hleaf : st.cur.is_leaf
  · simp only [hleaf, if_true] at h
    set st1 : SState :=
      { cur := pickTree trees (tOr (st.restarts + 1)),
        sentence := st.sentence,
        restarts := st.restarts + 1,
        seqLens := st.seqLens ++ [(i : Int) - st.seqLens.sum] } with hst1
    by_cases hE : st1.cur.children.isEmpty
    · simp [hE] at h
    · by_cases hT : (st1.cur.children.map Node.freq).sum = 0
      · simp [hE, hT] at h
      · simp only [hE, hT, if_neg, Bool.false_eq_true, if_false] at h
        have h2 : st2 =
            { cur := st1.cur.children.getD (sOr i % st1.cur.children.length) rootNode,
              sentence := st1.sentence ++
                [(st1.cur.children.getD (sOr i % st1.cur.children.length) rootNode).sym],
              restarts := st1.restarts, seqLens := st1.seqLens } := by
          cases h; rfl
        rw [h2]
        refine ⟨by simp [hst1], Or.inr ⟨by simp [hst1], by simp [hst1]⟩⟩
  · simp only [hleaf, Bool.false_eq_true, if_false] at h
    by_cases hE : st.cur.children.isEmpty
    · simp [hE] at h
    · by_cases hT : (st.cur.children.map Node.freq).sum = 0
      · simp [hE, hT] at h
      · simp only [hE, hT, if_neg, Bool.false_eq_true, if_false] at h
        have h2 : st2 =
            { cur := st.cur.children.getD (sOr i % st.cur.children.length) rootNode,
              sentence := st.sentence ++
                [(st.cur.children.getD (sOr i % st.cur.children.length) rootNode).sym],
              restarts := st.restarts, seqLens := st.seqLens } := by
          cases h; rfl
        rw [h2]
        exact ⟨by simp, Or.inl ⟨rfl, rfl⟩⟩

theorem sampLoop_inv (trees : List Node) (tOr sOr : Nat → Nat) :
    ∀ (n i : Nat) (st st2 : SState),
      sampLoop trees tOr sOr i n st = .ok st2 →
      st2.sentence.length = st.sentence.length + n ∧
      (st.seqLens.length = st.restarts → st2.seqLens.length = st2.restarts) ∧
      (st.seqLens.sum ≤ (i : Int) → st2.seqLens.sum ≤ ((i + n : Nat) : Int)) := by
  intro n
  induction n with
  | zero =>
    intro i st st2 h
    have h2 : st2 = st := by
      unfold sampLoop at h; cases h; rfl
    subst h2
    exact ⟨by simp, fun hh => hh, fun hh => by simpa using hh⟩
  | succ n ih =>
    intro i st st2 h
    unfold sampLoop at h
    cases hit : sampIter trees tOr sOr i st with
    | error e => rw [hit] at h; cases h
    | ok st1 =>
      rw [hit] at h
      obtain ⟨hlen1, hcase1⟩ := sampIter_fields trees tOr sOr i st st1 hit
      obtain ⟨hlen2, hrl2, hsum2⟩ := ih (i + 1) st1 st2 h
      refine ⟨by omega, ?_, ?_⟩
      · intro hrl
        apply hrl2
        rcases hcase1 with ⟨hr, hq⟩ | ⟨hr, hq⟩
        · rw [hr, hq]; exact hrl
        · rw [hr, hq]; simp [hrl]
      · intro hsum
        have hst1 : st1.seqLens.sum ≤ ((i + 1 : Nat) : Int) := by
          rcases hcase1 with ⟨hr, hq⟩ | ⟨hr, hq⟩
          · rw [hq]; push_cast; omega
          · rw [hq]
            simp only [List.sum_append, List.sum_cons, List.sum_nil]
            push_cast
            omega
        have := hsum2 hst1
        have hcast : ((i + 1 + n : Nat) : Int) = ((i + (n + 1) : Nat) : Int) := by
          push_cast; omega
        rw [hcast] at this
        exact this

/-- C1 counterexample: running `create_sentence` on the one-tree forest
whose root has the single leaf child `7`, with length 2, succeeds and
returns the sentence `[7, 7]` (2 symbols) but the segment-length list
`[1]`: the trailing unterminated run is not appended, and the returned
segment lengths sum to 1, not to the number of symbols generated. -/
theorem c1_counterexample :
    create_sentence [Node.mk 0 1 [Node.mk 7 1 []]] (fun _ => 0) (fun _ => 0) 2
      = .ok ([7, 7], 1, [1]) ∧
    [(1 : Int)].sum ≠ ((([7, 7] : List Int).length : Nat) : Int) :=
  ⟨rfl, by decide⟩

/-- C1 (amended): for every completed run of `create_sentence`, the
returned segment-length list has exactly one entry per leaf-triggered
restart (its length equals the restart count); no entry is appended for
the trailing unterminated run, so the entries sum to at most the
requested length (and in general to less than the number of symbols
generated). -/
theorem c1_amended_segment_lengths (trees : List Node) (tOr sOr : Nat → Nat)
    (len : Nat) (out : List Int × Nat × List Int)
    (h : create_sentence trees tOr sOr len = .ok out) :
    out.2.2.length = out.2.1 ∧ out.2.2.sum ≤ (len : Int) := by
  unfold create_sentence at h
  by_cases hE : trees.isEmpty
  · simp [hE] at h
  · simp only [hE, Bool.false_eq_true, if_false] at h
    cases hl : sampLoop trees tOr sOr 0 len ⟨pickTree trees (tOr 0), [], 0, []⟩ with
    | error e => rw [hl] at h; cases h
    | ok st =>
      rw [hl] at h
      have h2 : out = (st.sentence, st.restarts, st.seqLens) := by cases h; rfl
      obtain ⟨h3, h4, h5⟩ := sampLoop_inv trees tOr sOr len 0 _ st hl
      rw [h2]
      refine ⟨h4 rfl, ?_⟩
      have h6 := h5 (by simp)
      simpa using h6

/-- C1 witness: the amended statement, instantiated on the length-2 run
of the counterexample forest. -/
theorem c1_amended_witness :
    ([1] : List Int).length = 1 ∧ ([1] : List Int).sum ≤ ((2 : Nat) : Int) := by
  have h := c1_amended_segment_lengths [Node.mk 0 1 [Node.mk 7 1 []]]
    (fun _ => 0) (fun _ => 0) 2 ([7, 7], 1, [1]) rfl
  exact ⟨h.1, h.2⟩

/-- C2 counterexample: ingesting `[[1,2,1,2,3]]` with `max_steps = 1`
into a fresh root, the cursor (`cur_branch`) points at the node of path
`[1]` twice during ingestion — once when it is created and once when it
is re-entered — and neither occasion is the final unconsumed position
(the trace ends at the root), yet that node's frequency is 1, not 2: a
node's frequency does not count the times traversal reached it. -/
theorem c2_counterexample :
    (ibuildMany [[1, 2, 1, 2, 3]] (some 1) none rootNode).visits.dropLast.count [1] = 2 ∧
    freqAtD [1] (build_tree_many [[1, 2, 1, 2, 3]] rootNode (some 1) none) = 1 :=
  ⟨rfl, rfl⟩

/-- C2 (amended): for every set of sequences folded into a fresh tree by
`build_tree` and every node of the resulting tree, the node's frequency
equals the number of times line 20 incremented it while the cursor sat
at it (descents to an already-existing child), plus one if the node was
created by line 27 (zero for the root); arrivals at a node followed by
the creation of a new child do not contribute. -/
theorem c2_amended_frequency (seqs : List (List Int)) (mS mD : Option Nat)
    (q : List Int) :
    freqAtD q (build_tree_many seqs rootNode mS mD)
      = (ibuildMany seqs mS mD rootNode).hits.count q
        + (ibuildMany seqs mS mD rootNode).creates.count q := by
  have hl := ibuildMany_ledger seqs mS mD rootNode q
  rw [ibuildMany_b_tree] at hl
  rw [hl, freqAtD_rootNode]
  omega

/-- C3: for every forest and every requested length, a run of
`create_sentence` that completes without error returns a sentence of
exactly `length` symbols — each loop iteration emits exactly one symbol,
and a leaf-triggered restart does not consume an output slot. -/
theorem c3_sentence_exact_length (trees : List Node) (tOr sOr : Nat → Nat)
    (len : Nat) (out : List Int × Nat × List Int)
    (h : create_sentence trees tOr sOr len = .ok out) :
    out.1.length = len := by
  unfold create_sentence at h
  by_cases hE : trees.isEmpty
  · simp [hE] at h
  · simp only [hE, Bool.false_eq_true, if_false] at h
    cases hl : sampLoop trees tOr sOr 0 len ⟨pickTree trees (tOr 0), [], 0, []⟩ with
    | error e => rw [hl] at h; cases h
    | ok st =>
      rw [hl] at h
      have h2 : out = (st.sentence, st.restarts, st.seqLens) := by cases h; rfl
      rw [h2]
      have h3 := (sampLoop_inv trees tOr sOr len 0 _ st hl).1
      simpa using h3

/-- C3 witness: the length-3 run on the single-tree forest with one leaf
child emits exactly 3 symbols (with 2 restarts along the way). -/
theorem c3_witness : ([7, 7, 7] : List Int).length = 3 :=
  c3_sentence_exact_length [Node.mk 0 1 [Node.mk 7 1 []]]
    (fun _ => 0) (fun _ => 0) 3 ([7, 7, 7], 2, [1, 1]) rfl

/-- C4: the two reset conditions of `build_tree` are independent: when a
descent to an existing child makes `depth` reach `max_depth`, the cursor
returns to the root, `depth` resets to 0 and `steps` is untouched; when
the creation of a child makes `steps` reach `max_steps`, the cursor
returns to the root, `steps` resets to 0 and `depth` is untouched. -/
theorem c4_counter_independence (mS mD : Option Nat) (st : BState) (s : Int) :
    (s ∈ childSyms st.path st.tree → mD = some (st.depth + 1) →
      (buildStep mS mD st s).path = [] ∧ (buildStep mS mD st s).depth = 0 ∧
      (buildStep mS mD st s).steps = st.steps) ∧
    (s ∉ childSyms st.path st.tree → mS = some (st.steps + 1) →
      (buildStep mS mD st s).path = [] ∧ (buildStep mS mD st s).steps = 0 ∧
      (buildStep mS mD st s).depth = st.depth) := by
  constructor
  · intro hmem hd
    unfold buildStep
    simp [hmem, hd]
  · intro hmem hk
    unfold buildStep
    simp [hmem, hk]

/-- C4 witness: both reset branches instantiated — a step-limit reset on
a fresh root leaves `depth` at its value 4, and a depth-limit reset on a
root owning child `5` leaves `steps` at its value 3. -/
theorem c4_witness :
    ((buildStep (some 4) (some 9) ⟨rootNode, [], 3, 4⟩ 5).path = [] ∧
      (buildStep (some 4) (some 9) ⟨rootNode, [], 3, 4⟩ 5).steps = 0 ∧
      (buildStep (some 4) (some 9) ⟨rootNode, [], 3, 4⟩ 5).depth = 4) ∧
    ((buildStep (some 9) (some 5) ⟨Node.mk 0 0 [Node.mk 5 1 []], [], 3, 4⟩ 5).path = [] ∧
      (buildStep (some 9) (some 5) ⟨Node.mk 0 0 [Node.mk 5 1 []], [], 3, 4⟩ 5).depth = 0 ∧
      (buildStep (some 9) (some 5) ⟨Node.mk 0 0 [Node.mk 5 1 []], [], 3, 4⟩ 5).steps = 3) :=
  ⟨(c4_counter_independence (some 4) (some 9) ⟨rootNode, [], 3, 4⟩ 5).2 (by decide) rfl,
    (c4_counter_independence (some 9) (some 5)
      ⟨Node.mk 0 0 [Node.mk 5 1 []], [], 3, 4⟩ 5).1 (by decide) rfl⟩

/-- C5: `build_tree` stops at the first falsy symbol (0 for integer
symbols) without an error: the symbols before it are ingested exactly as
if the sequence ended there, and nothing at or after the falsy symbol
changes the builder state. -/
theorem c5_falsy_truncation (mS mD : Option Nat) (pre post : List Int)
    (st : BState) (hpre : ∀ x ∈ pre, x ≠ 0) :
    buildSeq mS mD (pre ++ 0 :: post) st = buildSeq mS mD pre st := by
  induction pre generalizing st with
  | nil => simp [buildSeq]
  | cons a pre ih =>
    have ha : a ≠ 0 := hpre a (by simp)
    simp only [List.cons_append, buildSeq, if_neg ha]
    exact ih (buildStep mS mD st a) (fun x hx => hpre x (by simp [hx]))

/-- C5 witness: ingesting `[3, 4, 0, 9]` equals ingesting `[3, 4]`. -/
theorem c5_witness :
    buildSeq (some 1) none ([3, 4] ++ 0 :: [9]) ⟨rootNode, [], 0, 0⟩
      = buildSeq (some 1) none [3, 4] ⟨rootNode, [], 0, 0⟩ :=
  c5_falsy_truncation (some 1) none [3, 4] [9] ⟨rootNode, [], 0, 0⟩ (by decide)

/-- C6: ingesting the single sequence `[1,2,1,2,3]` into a fresh empty
tree with `max_steps = 1`, `max_depth = None` yields exactly the tree of
the spec's example scenario: root frequency 1 with children `1` (freq 1,
one child `2` of freq 1), `2` (freq 1, childless) and `3` (freq 1,
childless). -/
theorem c6_example_scenario :
    build_tree [1, 2, 1, 2, 3] rootNode (some 1) none
      = Node.mk 0 1 [Node.mk 1 1 [Node.mk 2 1 []], Node.mk 2 1 [], Node.mk 3 1 []] :=
  rfl

/-- C7: every non-root node's frequency is ≥ 1 in every tree reachable by
folding sequences into a tree already satisfying the invariant (a fresh
root satisfies it vacuously): `build_tree` creates children with
frequency 1 and otherwise only increments frequencies, and sampling
never mutates the tree. -/
theorem c7_nonroot_frequency_ge_one (seqs : List (List Int)) (t : Node)
    (mS mD : Option Nat) (hw : wellFreq t) :
    wellFreq (build_tree_many seqs t mS mD) :=
  build_tree_many_wellFreq seqs t mS mD hw

/-- C7 witness: the invariant instantiated on a concrete two-sequence
ingestion from the fresh root. -/
theorem c7_witness :
    wellFreq (build_tree_many [[1, 2], [1, 3]] rootNode (some 2) none) :=
  c7_nonroot_frequency_ge_one [[1, 2], [1, 3]] rootNode (some 2) none
    wellFreq_rootNode

/-- C8: `build_tree` ingestion is deterministic — two runs on equal
sequence lists, equal starting trees and equal `max_steps`/`max_depth`
produce identical tree structures and frequency assignments (the
embedding takes no randomness source, unlike `create_sentence`). -/
theorem c8_ingestion_determinism (s1 s2 : List (List Int)) (t1 t2 : Node)
    (a1 a2 b1 b2 : Option Nat) (hs : s1 = s2) (ht : t1 = t2)
    (ha : a1 = a2) (hb : b1 = b2) :
    build_tree_many s1 t1 a1 b1 = build_tree_many s2 t2 a2 b2 := by
  rw [hs, ht, ha, hb]

/-- C8 witness: the determinism statement instantiated on a concrete
ingestion. -/
theorem c8_witness :
    build_tree_many [[1, 2, 1]] rootNode (some 1) none
      = build_tree_many [[1, 2, 1]] rootNode (some 1) none :=
  c8_ingestion_determinism [[1, 2, 1]] [[1, 2, 1]] rootNode rootNode
    (some 1) (some 1) none none rfl rfl rfl rfl

/-- C9: at every sampling step whose current node has at least one child
(children having frequency ≥ 1, the §3 invariant), the per-child
probabilities — each child's frequency divided by the freshly recomputed
sum `total_seen` of the current children's frequencies — sum to exactly
1 (the embedding computes in ℚ, so "within floating tolerance" becomes
exact equality). -/
theorem c9_probabilities_sum_one (n : Node) (h1 : n.children ≠ [])
    (h2 : ∀ c ∈ n.children, 1 ≤ c.freq) :
    (probabilities n).sum = 1 := by
  have htot : total_seen n ≠ 0 := by
    unfold total_seen
    cases hcs : n.children with
    | nil => exact absurd hcs h1
    | cons c cs =>
      have hc := h2 c (by rw [hcs]; exact List.mem_cons_self c cs)
      simp only [List.map_cons, List.sum_cons]
      omega
  have hstep : probabilities n
      = n.children.map (fun c => (c.freq : ℚ) * ((total_seen n : ℚ))⁻¹) := by
    unfold probabilities
    simp [div_eq_mul_inv]
  rw [hstep, List.sum_map_mul_right]
  have hcast : (n.children.map (fun c => (c.freq : ℚ))).sum = ((total_seen n : Nat) : ℚ) := by
    unfold total_seen
    rw [Nat.cast_list_sum, List.map_map]
    rfl
  rw [hcast, mul_inv_cancel₀]
  exact Nat.cast_ne_zero.mpr htot

/-- C9 witness: on a node with children of frequencies 3 and 1 the
probability list is `[3/4, 1/4]`, summing to 1. -/
theorem c9_witness :
    (Node.mk 0 0 [Node.mk 1 3 [], Node.mk 2 1 []]).children ≠ [] ∧
    (∀ c ∈ (Node.mk 0 0 [Node.mk 1 3 [], Node.mk 2 1 []]).children, 1 ≤ c.freq) ∧
    (probabilities (Node.mk 0 0 [Node.mk 1 3 [], Node.mk 2 1 []])).sum = 1 :=
  ⟨by exact List.cons_ne_nil _ _, by decide,
    c9_probabilities_sum_one (Node.mk 0 0 [Node.mk 1 3 [], Node.mk 2 1 []])
      (by exact List.cons_ne_nil _ _) (by decide)⟩

/-- C10: the leaf check happens at most once per output position — if the
current node is a leaf and the tree chosen at the resulting restart has a
childless root, the same iteration samples from the empty children set
and errors; no second restart happens and no symbol is emitted. -/
theorem c10_single_leaf_check (trees : List Node) (tOr sOr : Nat → Nat)
    (i : Nat) (st : SState) (h1 : st.cur.is_leaf = true)
    (h2 : (pickTree trees (tOr (st.restarts + 1))).is_leaf = true) :
    sampIter trees tOr sOr i st = .error () := by
  unfold sampIter
  simp only [h1, if_true]
  simp only [Node.is_leaf] at h2
  simp [h2]

/-- C10 witness: a forest holding a childless tree and a productive tree;
the cursor sits on a leaf, the restart draws the childless tree, and the
iteration errors instead of restarting again. -/
theorem c10_witness :
    sampIter [Node.mk 0 3 [], Node.mk 0 1 [Node.mk 7 1 []]]
      (fun _ => 0) (fun _ => 0) 1 ⟨Node.mk 0 3 [], [7], 0, []⟩ = .error () :=
  c10_single_leaf_check [Node.mk 0 3 [], Node.mk 0 1 [Node.mk 7 1 []]]
    (fun _ => 0) (fun _ => 0) 1 ⟨Node.mk 0 3 [], [7], 0, []⟩ rfl rfl
